import Mathlib

/-!
Shallow embedding of the core rating and pair-selection logic of
`src/ranker.py` (class `ApartmentEloRanker`), together with proofs about it.

Modelling conventions:
* Python floats are modelled as elements of a linear ordered field; the
  ELO arithmetic theorems instantiate it with `ℝ` (exact real arithmetic)
  and the executable selection/ranking theorems with `ℚ`.
* Python `10 ** x` is passed in as a function parameter `pow10`; for `ℝ`
  it is real exponentiation (see `pow10R`).
* The Python dict `elo_scores` is modelled as an association list:
  `d[k]` (which raises `KeyError` on a missing key) is `dictGet d k`
  returning `none` on a missing key, `d.get(k, v)` is `dictGetD d k v`,
  and assignment `d[k] = v` is `dictSet d k v`.
* `random.sample` in `get_random_pair` is abstracted by an explicit
  `choice` argument holding the pair of indices that would be drawn.
* Dataframe rows are indexed `0, 1, ..., n-1`; the field `items` lists the
  apartment ids (MD5 hashes of links in the source, opaque `Nat` keys
  here) in row order.  Exceptions are modelled by `Option`: a core
  operation that would raise returns `none`.
-/

namespace Ranker

/-- INITIAL_ELO constant (`src/ranker.py` line 25). -/
def INITIAL_ELO : Nat := 1000

/-- K_FACTOR constant (`src/ranker.py` line 26). -/
def K_FACTOR : Nat := 32

/-- One entry of `self.match_history` (`src/ranker.py` lines 94-102); the
timestamp field is omitted as no logic reads it. -/
structure Outcome (α : Type) where
  winner_idx : Nat
  loser_idx : Nat
  winner_elo_before : α
  loser_elo_before : α
  winner_elo_after : α
  loser_elo_after : α
deriving DecidableEq

/-- The mutable state of an `ApartmentEloRanker`: the dataframe (reduced to
the list of apartment ids in row order), `self.elo_scores` and
`self.match_history`. -/
structure RankerState (α : Type) where
  items : List Nat
  elo_scores : List (Nat × α)
  match_history : List (Outcome α)
deriving DecidableEq

/-- Python dict subscript `d[k]`: `none` models a raised `KeyError`. -/
def dictGet {α : Type} (d : List (Nat × α)) (k : Nat) : Option α :=
  (d.find? (fun p => p.1 == k)).map (fun p => p.2)

/-- Python `d.get(k, v)`. -/
def dictGetD {α : Type} (d : List (Nat × α)) (k : Nat) (v : α) : α :=
  (dictGet d k).getD v

/-- Python dict assignment `d[k] = v` (replace the binding if present,
append it otherwise). -/
def dictSet {α : Type} : List (Nat × α) → Nat → α → List (Nat × α)
  | [], k, v => [(k, v)]
  | p :: rest, k, v => if p.1 = k then (k, v) :: rest else p :: dictSet rest k v

/-- Method `calculate_elo_change` (`src/ranker.py` lines 70-78). -/
def calculate_elo_change {α : Type} [LinearOrderedField α] (pow10 : α → α)
    (winner_elo loser_elo : α) : α × α :=
  let expected_winner := 1 / (1 + pow10 ((loser_elo - winner_elo) / 400))
  let expected_loser := 1 / (1 + pow10 ((winner_elo - loser_elo) / 400))
  (winner_elo + (K_FACTOR : α) * (1 - expected_winner),
   loser_elo + (K_FACTOR : α) * (0 - expected_loser))

/-- Real-number meaning of Python `10 ** x` for float `x`. -/
noncomputable def pow10R (x : ℝ) : ℝ := (10 : ℝ) ^ x

/-- Method `record_match` (`src/ranker.py` lines 80-104).  Looks the two
row indices up with `iloc` (an out-of-range index raises, hence `none`),
reads both ratings with a direct dict subscript (a missing key raises
`KeyError`, hence `none`), applies `calculate_elo_change`, writes the two
new ratings back and appends one `Outcome` to the history.  The trailing
`save_data()` call is external persistence and is not modelled. -/
def record_match {α : Type} [LinearOrderedField α] (pow10 : α → α)
    (s : RankerState α) (winner_idx loser_idx : Nat) : Option (RankerState α) :=
  (s.items[winner_idx]?).bind (fun winner_id =>
  (s.items[loser_idx]?).bind (fun loser_id =>
  (dictGet s.elo_scores winner_id).bind (fun winner_elo =>
  (dictGet s.elo_scores loser_id).bind (fun loser_elo =>
    let r := calculate_elo_change pow10 winner_elo loser_elo
    some { items := s.items
           elo_scores := dictSet (dictSet s.elo_scores winner_id r.1) loser_id r.2
           match_history := s.match_history ++
             [⟨winner_idx, loser_idx, winner_elo, loser_elo, r.1, r.2⟩] }))))

/-- Python's list slice `l[-n:]`: the last `n` entries when `n ≥ 1`, but
the WHOLE list when `n = 0`, because `-0 == 0` and `l[0:]` is all of `l`. -/
def lastSlice {β : Type} (l : List β) (n : Nat) : List β :=
  if n = 0 then l else l.drop (l.length - n)

/-- Method `_was_recently_matched` (`src/ranker.py` lines 156-167): when
the history is shorter than `recent_matches` it is scanned whole,
otherwise the slice `match_history[-recent_matches:]` is scanned — which
for `recent_matches = 0` is again the whole history. -/
def was_recently_matched {α : Type} (history : List (Outcome α))
    (idx1 idx2 recent_matches : Nat) : Bool :=
  let matches_to_check :=
    if history.length < recent_matches then history
    else lastSlice history recent_matches
  matches_to_check.any (fun m =>
    (m.winner_idx == idx1 && m.loser_idx == idx2) ||
    (m.winner_idx == idx2 && m.loser_idx == idx1))

/-- Method `get_random_pair` (`src/ranker.py` lines 106-112); the
`random.sample` draw is abstracted by the `choice` argument. -/
def get_random_pair {α : Type} (s : RankerState α) (choice : Nat × Nat) :
    Option (Nat × Nat) :=
  if s.items.length < 2 then none else some choice

/-- Rating of the row at position `idx`, as read throughout the source by
`self.elo_scores.get(apt_id, INITIAL_ELO)`. -/
def elo_of {α : Type} [LinearOrderedField α] (s : RankerState α) (idx : Nat) : α :=
  dictGetD s.elo_scores (s.items.getD idx 0) (INITIAL_ELO : α)

/-- The list `apartment_elos` built in `get_active_learning_pair`
(`src/ranker.py` lines 120-124). -/
def apartment_elos {α : Type} [LinearOrderedField α] (s : RankerState α) :
    List (Nat × α) :=
  (List.range s.items.length).map (fun idx => (idx, elo_of s idx))

/-- Comparison used by `apartment_elos.sort(key=lambda x: x[1], reverse=True)`:
a stable descending sort by the second component. -/
def eloDescLE {α : Type} [LinearOrderedField α] (a b : Nat × α) : Bool :=
  decide (b.2 ≤ a.2)

/-- All index pairs `(i, j)` with `i < j` of a list, in the order the
source's nested `for i / for j in range(i+1, ...)` loops visit them. -/
def pairScan {β : Type} : List β → List (β × β)
  | [] => []
  | x :: xs => xs.map (fun y => (x, y)) ++ pairScan xs

/-- Loop body of the best-pair search in `get_active_learning_pair`
(`src/ranker.py` lines 133-148): skip recently matched pairs, otherwise
keep the pair with the smallest rating difference seen so far; `none`
models the initial `min_elo_diff = inf`, so the comparison
`elo_diff < min_elo_diff` of the source is `true` there. -/
def bestStep {α : Type} [LinearOrderedField α] (history : List (Outcome α))
    (acc : Option ((Nat × Nat) × α)) (q : (Nat × α) × (Nat × α)) :
    Option ((Nat × Nat) × α) :=
  if was_recently_matched history q.1.1 q.2.1 5 then acc
  else
    match acc with
    | none => some ((q.1.1, q.2.1), |q.1.2 - q.2.2|)
    | some (bp, md) =>
      if |q.1.2 - q.2.2| < md then some ((q.1.1, q.2.1), |q.1.2 - q.2.2|)
      else some (bp, md)

/-- Method `get_active_learning_pair` (`src/ranker.py` lines 114-154). -/
def get_active_learning_pair {α : Type} [LinearOrderedField α]
    (s : RankerState α) (choice : Nat × Nat) : Option (Nat × Nat) :=
  if s.items.length < 2 then none
  else
    match (pairScan ((apartment_elos s).mergeSort eloDescLE)).foldl
        (bestStep s.match_history) none with
    | some (bp, _) => some bp
    | none => get_random_pair s choice

/-- Number of appearances of row `idx` in the full history, as counted by
the `match_counts` loop of `get_balanced_pair` (`src/ranker.py` lines
175-181): each outcome adds one for its winner and one for its loser. -/
def match_count {α : Type} (history : List (Outcome α)) (idx : Nat) : Nat :=
  history.foldl (fun c m =>
    c + (if m.winner_idx = idx then 1 else 0) +
        (if m.loser_idx = idx then 1 else 0)) 0

/-- The `match_counts.items()` list of `get_balanced_pair`, in insertion
order `0, 1, ..., n-1`.  The Python loop raises `KeyError` when the
history mentions an index outside `range(n)`; theorems about
`get_balanced_pair` therefore assume every history index is in range,
where this total model agrees with the source. -/
def match_counts {α : Type} (s : RankerState α) : List (Nat × Nat) :=
  (List.range s.items.length).map (fun idx => (idx, match_count s.match_history idx))

/-- Comparison used by `sorted(match_counts.items(), key=lambda x: x[1])`:
a stable ascending sort by count. -/
def countAscLE (a b : Nat × Nat) : Bool :=
  decide (a.2 ≤ b.2)

/-- The `sorted_apartments` list of `get_balanced_pair` (`src/ranker.py`
line 184): the (index, count) pairs stably sorted by ascending count, so
ordered by (count, then original index). -/
def sorted_match_counts {α : Type} (s : RankerState α) : List (Nat × Nat) :=
  (match_counts s).mergeSort countAscLE

/-- Acceptance test of the pair loop in `get_balanced_pair` (`src/ranker.py`
lines 187-195): both appearance counts at most 2 and the rows not matched
within the last 5 outcomes. -/
def low_count_test {α : Type} (s : RankerState α)
    (q : (Nat × Nat) × (Nat × Nat)) : Bool :=
  decide (q.1.2 ≤ 2) && decide (q.2.2 ≤ 2) &&
  !(was_recently_matched s.match_history q.1.1 q.2.1 5)

/-- Method `get_balanced_pair` (`src/ranker.py` lines 169-198): first pair
in the ascending-(count, index) scan order whose two rows both have at most
2 appearances and which was not recently matched; otherwise fall back to
active learning. -/
def get_balanced_pair {α : Type} [LinearOrderedField α] (s : RankerState α)
    (choice : Nat × Nat) : Option (Nat × Nat) :=
  if s.items.length < 2 then none
  else
    match (pairScan (sorted_match_counts s)).find? (low_count_test s) with
    | some q => some (q.1.1, q.2.1)
    | none => get_active_learning_pair s choice

/-- Method `get_smart_pair` (`src/ranker.py` lines 200-207). -/
def get_smart_pair {α : Type} [LinearOrderedField α] (s : RankerState α)
    (strategy : String) (choice : Nat × Nat) : Option (Nat × Nat) :=
  if strategy == "active_learning" then get_active_learning_pair s choice
  else if strategy == "balanced" then get_balanced_pair s choice
  else get_random_pair s choice

/-- One element of the list built by `get_rankings` (`src/ranker.py` lines
257-274); the `apartment` row itself is represented by its row `index`. -/
structure RankEntry (α : Type) where
  rank : Nat
  index : Nat
  elo : α
deriving DecidableEq

/-- Comparison used by `rankings.sort(key=lambda x: x['elo'], reverse=True)`. -/
def rankDescLE {α : Type} [LinearOrderedField α] (a b : RankEntry α) : Bool :=
  decide (b.elo ≤ a.elo)

/-- The unsorted `rankings` list built by the loop of `get_rankings`
(`src/ranker.py` lines 259-268): one entry per row, rank initially 0. -/
def rankings_base {α : Type} [LinearOrderedField α] (s : RankerState α) :
    List (RankEntry α) :=
  (List.range s.items.length).map (fun idx =>
    { rank := 0, index := idx, elo := elo_of s idx : RankEntry α })

/-- The `rankings` list after `rankings.sort(key=lambda x: x['elo'],
reverse=True)` (`src/ranker.py` line 270): a stable descending sort. -/
def rankings_sorted {α : Type} [LinearOrderedField α] (s : RankerState α) :
    List (RankEntry α) :=
  (rankings_base s).mergeSort rankDescLE

/-- Method `get_rankings` (`src/ranker.py` lines 257-274): build one entry
per row with rank 0, sort by rating descending (stable), then overwrite the
ranks with `i + 1` in sorted order. -/
def get_rankings {α : Type} [LinearOrderedField α] (s : RankerState α) :
    List (RankEntry α) :=
  (rankings_sorted s).enum.map (fun p =>
    { rank := p.1 + 1, index := p.2.index, elo := p.2.elo })

/-- Eligibility of a pair of row positions for active-learning selection:
two distinct in-range rows that were not matched within the last 5
outcomes. -/
def eligible_pair {α : Type} [LinearOrderedField α] (s : RankerState α)
    (a b : Nat) : Prop :=
  a < s.items.length ∧ b < s.items.length ∧ a ≠ b ∧
    was_recently_matched s.match_history a b 5 = false

/-- Validity of a pair of row positions for balanced-coverage selection:
two distinct in-range rows, each appearing at most twice in the full
history, not matched within the last 5 outcomes. -/
def balanced_pair_ok {α : Type} [LinearOrderedField α] (s : RankerState α)
    (a b : Nat) : Prop :=
  a < s.items.length ∧ b < s.items.length ∧ a ≠ b ∧
    match_count s.match_history a ≤ 2 ∧ match_count s.match_history b ≤ 2 ∧
    was_recently_matched s.match_history a b 5 = false

instance eligible_pair_decidable {α : Type} [LinearOrderedField α]
    (s : RankerState α) (a b : Nat) : Decidable (eligible_pair s a b) := by
  unfold eligible_pair
  infer_instance

instance balanced_pair_ok_decidable {α : Type} [LinearOrderedField α]
    (s : RankerState α) (a b : Nat) : Decidable (balanced_pair_ok s a b) := by
  unfold balanced_pair_ok
  infer_instance

/-- Outcome with given winner and loser rows and all ratings zero, used in
concrete test states where the recorded ratings are irrelevant. -/
def mkOut {α : Type} [Zero α] (w l : Nat) : Outcome α :=
  ⟨w, l, 0, 0, 0, 0⟩

/-- Three items rated A:1000, B:1010, C:1200 with empty history (the
active-learning scenario of the spec). -/
def exActive : RankerState ℚ :=
  ⟨[10, 20, 30], [(10, 1000), (20, 1010), (30, 1200)], []⟩

/-- Three items rated 1000, 1010, 1020 with empty history: the pairs
(0,1) and (1,2) tie at difference 10. -/
def exTie : RankerState ℚ :=
  ⟨[10, 20, 30], [(10, 1000), (20, 1010), (30, 1020)], []⟩

/-- Four items where rows 2 and 3 already met three times and rows 0 and 1
never appeared (the balanced-coverage scenario of the spec). -/
def exBalanced : RankerState ℚ :=
  ⟨[10, 11, 12, 13], [], [mkOut 2 3, mkOut 2 3, mkOut 2 3]⟩

/-- Five items where rows 0 and 1 met once and rows 2, 3, 4 never appeared:
many pairs pass the balanced test, so the result discriminates the
ascending-(count, index) first-found scan (which must pick rows 2 and 3). -/
def exBalanced2 : RankerState ℚ :=
  ⟨[20, 21, 22, 23, 24], [], [mkOut 0 1]⟩

/-- A one-entry history whose single outcome is a match of rows 0 and 1. -/
def exZeroHist : List (Outcome ℚ) := [mkOut 0 1]

/-- Single-item state, for the too-few-items guard. -/
def exSingle : RankerState ℚ := ⟨[5], [], []⟩

/-- Strategy name accepted by get_smart_pair. -/
def strategy_balanced : String := "balanced"

/-- Five outcomes, none involving the pair of rows 0 and 1. -/
def exHist5 : List (Outcome ℝ) :=
  [mkOut 2 3, mkOut 3 4, mkOut 4 5, mkOut 2 4, mkOut 3 5]

/-- Two items whose keys 5 and 7 have no entry in the rating table. -/
def exMissing : RankerState ℝ := ⟨[5, 7], [], []⟩

/-- Two items, key 7 absent from the rating table, key 5 rated 500. -/
def exPartial : RankerState ℚ := ⟨[5, 7], [(5, 500)], []⟩

/-- Two items both rated 1000, empty history. -/
def exEven : RankerState ℝ := ⟨[5, 7], [(5, 1000), (7, 1000)], []⟩

/-- The state `record_match` produces from `exEven` when row 0 beats
row 1. -/
def exEven' : RankerState ℝ :=
  ⟨[5, 7], [(5, 1016), (7, 984)], [⟨0, 1, 1000, 1000, 1016, 984⟩]⟩

/-- Three items for the rankings theorems: row 0 (key 5) rated 1100,
row 1 (key 7) unrated hence 1000, row 2 (key 9) rated 1100. -/
def exRank : RankerState ℚ := ⟨[5, 7, 9], [(5, 1100), (9, 1100)], []⟩

/-- Positivity of real exponentials of base 10. -/
theorem pow10R_pos (x : ℝ) : 0 < pow10R x :=
  Real.rpow_pos_of_pos (by norm_num) x

/-- With equal inputs both expectations are 1/2, so the winner gains
exactly 16 and the loser loses exactly 16. -/
theorem calculate_elo_change_self (r : ℝ) :
    calculate_elo_change pow10R r r = (r + 16, r - 16) := by
  simp only [calculate_elo_change, pow10R, sub_self, zero_div, Real.rpow_zero,
    K_FACTOR, Prod.mk.injEq]
  norm_num
  constructor <;> ring

/-- The two expectations sum to 1, so the update is zero-sum in exact
arithmetic. -/
theorem calculate_elo_change_sum (r1 r2 : ℝ) :
    (calculate_elo_change pow10R r1 r2).1 + (calculate_elo_change pow10R r1 r2).2 =
      r1 + r2 := by
  have hkey : pow10R ((r1 - r2) / 400) = (pow10R ((r2 - r1) / 400))⁻¹ := by
    unfold pow10R
    rw [show (r1 - r2) / 400 = -((r2 - r1) / 400) by ring,
      Real.rpow_neg (by norm_num)]
  have htpos := pow10R_pos ((r2 - r1) / 400)
  simp only [calculate_elo_change, hkey]
  set t := pow10R ((r2 - r1) / 400) with ht
  have h1 : (1 : ℝ) + t ≠ 0 := by positivity
  have h2 : t ≠ 0 := ne_of_gt htpos
  have h3 : (1 : ℝ) + t⁻¹ ≠ 0 := by positivity
  field_simp
  ring

/-- The winner's rating strictly increases. -/
theorem calculate_elo_change_fst_gt (r1 r2 : ℝ) :
    r1 < (calculate_elo_change pow10R r1 r2).1 := by
  have htpos := pow10R_pos ((r2 - r1) / 400)
  simp only [calculate_elo_change]
  set t := pow10R ((r2 - r1) / 400) with ht
  have hlt : 1 / (1 + t) < 1 := by
    rw [div_lt_one (by positivity)]
    linarith
  have hk : (0 : ℝ) < (K_FACTOR : ℝ) := by norm_num [K_FACTOR]
  have := mul_pos hk (by linarith : (0 : ℝ) < 1 - 1 / (1 + t))
  linarith

/-- The loser's rating strictly decreases. -/
theorem calculate_elo_change_snd_lt (r1 r2 : ℝ) :
    (calculate_elo_change pow10R r1 r2).2 < r2 := by
  have hspos := pow10R_pos ((r1 - r2) / 400)
  simp only [calculate_elo_change]
  set u := pow10R ((r1 - r2) / 400) with hu
  have hp : (0 : ℝ) < 1 / (1 + u) := by positivity
  have hk : (0 : ℝ) < (K_FACTOR : ℝ) := by norm_num [K_FACTOR]
  have := mul_pos hk hp
  linarith

/-- C1: for the ELO update with K_FACTOR = 32, equal input ratings make
the winner gain exactly 16 and the loser lose exactly 16; in particular
calculate_elo_change(1000, 1000) returns (1016.0, 984.0). -/
theorem elo_equal_ratings_half_k :
    (∀ r : ℝ, calculate_elo_change pow10R r r = (r + 16, r - 16)) ∧
    calculate_elo_change pow10R 1000 1000 = (1016, 984) := by
  refine ⟨calculate_elo_change_self, ?_⟩
  rw [calculate_elo_change_self]
  norm_num

/-- C2: for ratings r1 > r2, calculate_elo_change leaves the sum of the
two ratings unchanged (zero-sum, in exact arithmetic). -/
theorem elo_zero_sum (r1 r2 : ℝ) (h : r1 > r2) :
    (calculate_elo_change pow10R r1 r2).1 + (calculate_elo_change pow10R r1 r2).2 =
      r1 + r2 :=
  calculate_elo_change_sum r1 r2

/-- Witness for C2 at the concrete ratings (1000, 900). -/
theorem elo_zero_sum_witness :
    (1000 : ℝ) > 900 ∧
    (calculate_elo_change pow10R 1000 900).1 + (calculate_elo_change pow10R 1000 900).2 =
      1000 + 900 :=
  ⟨by norm_num, elo_zero_sum 1000 900 (by norm_num)⟩

/-- C3: for ratings r1 > r2, the winner's new rating is strictly greater
than r1 and the loser's new rating is strictly less than r2. -/
theorem elo_strict_gain_loss (r1 r2 : ℝ) (h : r1 > r2) :
    r1 < (calculate_elo_change pow10R r1 r2).1 ∧
    (calculate_elo_change pow10R r1 r2).2 < r2 :=
  ⟨calculate_elo_change_fst_gt r1 r2, calculate_elo_change_snd_lt r1 r2⟩

/-- Witness for C3 at the concrete ratings (1100, 1000). -/
theorem elo_strict_gain_loss_witness :
    (1100 : ℝ) > 1000 ∧
    ((1100 : ℝ) < (calculate_elo_change pow10R 1100 1000).1 ∧
      (calculate_elo_change pow10R 1100 1000).2 < 1000) :=
  ⟨by norm_num, elo_strict_gain_loss 1100 1000 (by norm_num)⟩

/-- Characterization of the recent-match test for positive window sizes as
an existential over the last `n` history entries. -/
theorem was_matched_iff {α : Type} (history : List (Outcome α)) (a b n : Nat)
    (hn : 1 ≤ n) :
    was_recently_matched history a b n = true ↔
    ∃ m ∈ history.drop (history.length - n),
      (m.winner_idx = a ∧ m.loser_idx = b) ∨ (m.winner_idx = b ∧ m.loser_idx = a) := by
  simp only [was_recently_matched, lastSlice]
  by_cases hlen : history.length < n
  · rw [if_pos hlen]
    have h0 : history.length - n = 0 := by omega
    rw [h0, List.drop_zero]
    simp
  · rw [if_neg hlen, if_neg (by omega)]
    simp

/-- With a window of 0 the Python slice `[-0:]` scans the whole history. -/
theorem was_matched_zero_iff {α : Type} (history : List (Outcome α)) (a b : Nat) :
    was_recently_matched history a b 0 = true ↔
    ∃ m ∈ history,
      (m.winner_idx = a ∧ m.loser_idx = b) ∨ (m.winner_idx = b ∧ m.loser_idx = a) := by
  simp only [was_recently_matched, lastSlice]
  rw [if_neg (by omega : ¬history.length < 0)]
  simp

/-- Dropping at most the left part of an append drops only from the left
part. -/
theorem drop_append_le {β : Type} :
    ∀ (l₁ l₂ : List β) (k : Nat), k ≤ l₁.length →
      (l₁ ++ l₂).drop k = l₁.drop k ++ l₂ := by
  intro l₁
  induction l₁ with
  | nil =>
    intro l₂ k hk
    simp at hk
    simp [hk]
  | cons x xs ih =>
    intro l₂ k hk
    cases k with
    | zero => simp
    | succ k' =>
      simp only [List.cons_append, List.drop_succ_cons]
      exact ih l₂ k' (by simpa using hk)

/-- C5 counterexample: with window 0 and a one-entry history whose single
outcome matches rows 0 and 1, the source scans `match_history[-0:]`, the
whole history, and returns True, while the claim's "some outcome among the
last 0 entries" requires False. -/
theorem was_recently_matched_zero_counterexample :
    ¬(was_recently_matched exZeroHist 0 1 0 = true ↔
      ∃ m ∈ exZeroHist.drop (exZeroHist.length - 0),
        (m.winner_idx = 0 ∧ m.loser_idx = 1) ∨
        (m.winner_idx = 1 ∧ m.loser_idx = 0)) := by
  decide

/-- C5 amended: for every window n ≥ 1, was_recently_matched(a, b, n) is
true iff some outcome among the last n history entries involves both a and
b in either order (for n = 0 the Python slice [-0:] makes it scan the
entire history instead); it is true immediately after record_match(a, b),
and false once 5 outcomes not involving the pair have been recorded after
an arbitrary prefix. -/
theorem was_recently_matched_spec :
    (∀ (history : List (Outcome ℝ)) (a b n : Nat), 1 ≤ n →
      (was_recently_matched history a b n = true ↔
      ∃ m ∈ history.drop (history.length - n),
        (m.winner_idx = a ∧ m.loser_idx = b) ∨ (m.winner_idx = b ∧ m.loser_idx = a))) ∧
    (∀ (history : List (Outcome ℝ)) (a b : Nat),
      was_recently_matched history a b 0 = true ↔
      ∃ m ∈ history,
        (m.winner_idx = a ∧ m.loser_idx = b) ∨ (m.winner_idx = b ∧ m.loser_idx = a)) ∧
    (∀ (s s' : RankerState ℝ) (a b : Nat),
      record_match pow10R s a b = some s' →
      was_recently_matched s'.match_history a b 5 = true) ∧
    (∀ (h l : List (Outcome ℝ)) (a b : Nat), l.length = 5 →
      (∀ m ∈ l,
        ¬((m.winner_idx = a ∧ m.loser_idx = b) ∨ (m.winner_idx = b ∧ m.loser_idx = a))) →
      was_recently_matched (h ++ l) a b 5 = false) := by
  refine ⟨fun history a b n hn => was_matched_iff history a b n hn,
    fun history a b => was_matched_zero_iff history a b, ?_, ?_⟩
  · intro s s' a b hr
    unfold record_match at hr
    rcases hwi : s.items[a]? with _ | wid <;> rw [hwi] at hr
    · simp at hr
    rcases hli : s.items[b]? with _ | lid <;> rw [hli] at hr
    · simp at hr
    simp only [Option.some_bind] at hr
    rcases hwe : dictGet s.elo_scores wid with _ | we <;> rw [hwe] at hr
    · simp at hr
    simp only [Option.some_bind] at hr
    rcases hle : dictGet s.elo_scores lid with _ | le <;> rw [hle] at hr
    · simp at hr
    simp only [Option.some_bind] at hr
    injection hr with hr
    subst hr
    rw [was_matched_iff _ _ _ _ (by omega)]
    refine ⟨⟨a, b, we, le, (calculate_elo_change pow10R we le).1,
      (calculate_elo_change pow10R we le).2⟩, ?_, Or.inl ⟨rfl, rfl⟩⟩
    simp only [List.length_append, List.length_cons, List.length_nil]
    rw [drop_append_le _ _ _ (by omega)]
    exact List.mem_append_right _ (by simp)
  · intro h l a b hlen hnone
    have hiff := was_matched_iff (h ++ l) a b 5 (by omega)
    rcases hw : was_recently_matched (h ++ l) a b 5 with _ | _
    · rfl
    · exfalso
      obtain ⟨m, hm, hpair⟩ := hiff.mp hw
      rw [List.length_append, hlen, Nat.add_sub_cancel, List.drop_left] at hm
      exact hnone m hm hpair

/-- Witness for C5: five outcomes not involving rows 0 and 1 make the
recent-match test false for that pair. -/
theorem was_recently_matched_spec_witness :
    was_recently_matched (([] : List (Outcome ℝ)) ++ exHist5) 0 1 5 = false :=
  was_recently_matched_spec.2.2.2 [] exHist5 0 1 rfl (by decide)

/-- C6: every pair-selection strategy returns none when fewer than two
items exist. -/
theorem too_few_items_no_pair (s : RankerState ℚ) (choice : Nat × Nat)
    (strategy : String) (h : s.items.length < 2) :
    get_random_pair s choice = none ∧ get_active_learning_pair s choice = none ∧
    get_balanced_pair s choice = none ∧ get_smart_pair s strategy choice = none := by
  have hr : get_random_pair s choice = none := by simp [get_random_pair, h]
  have ha : get_active_learning_pair s choice = none := by
    simp [get_active_learning_pair, h]
  have hb : get_balanced_pair s choice = none := by simp [get_balanced_pair, h]
  refine ⟨hr, ha, hb, ?_⟩
  unfold get_smart_pair
  split_ifs <;> first | exact ha | exact hb | exact hr

/-- Witness for C6 on a one-item state. -/
theorem too_few_items_no_pair_witness :
    exSingle.items.length < 2 ∧
    (get_random_pair exSingle (0, 0) = none ∧
     get_active_learning_pair exSingle (0, 0) = none ∧
     get_balanced_pair exSingle (0, 0) = none ∧
     get_smart_pair exSingle strategy_balanced (0, 0) = none) :=
  ⟨by decide, too_few_items_no_pair exSingle (0, 0) strategy_balanced (by decide)⟩

/-- C7 counterexample: record_match on a state whose keys have no entry in
elo_scores does not treat them as rating 1000; it fails (the source raises
KeyError at the direct dict subscript on line 85). -/
theorem record_match_missing_key_fails :
    record_match pow10R exMissing 0 1 = none := rfl

/-- Entries surviving the rank-assignment pass of get_rankings. -/
theorem mem_enum_map_rank {α : Type} (l : List (RankEntry α)) (x : RankEntry α)
    (hx : x ∈ l) :
    ∀ n : Nat, ∃ e ∈ (l.enumFrom n).map
        (fun p => ({ rank := p.1 + 1, index := p.2.index, elo := p.2.elo } : RankEntry α)),
      e.index = x.index ∧ e.elo = x.elo := by
  induction l with
  | nil => cases hx
  | cons y ys ih =>
    intro n
    rcases List.mem_cons.mp hx with rfl | hx'
    · exact ⟨⟨n + 1, x.index, x.elo⟩, by simp, rfl, rfl⟩
    · obtain ⟨e, he, hei, hee⟩ := ih hx' (n + 1)
      exact ⟨e, by simp only [List.enumFrom_cons, List.map_cons]; exact List.mem_cons_of_mem _ he,
        hei, hee⟩

/-- C7 amended: lookups through elo_scores.get (as in get_rankings and the
pair selectors) treat an absent key as the default rating 1000, while
record_match requires both participants' keys to be present and fails
otherwise; with both keys present record_match always succeeds. -/
theorem absent_key_defaults :
    (∀ (s : RankerState ℚ) (i : Nat), i < s.items.length →
      dictGet s.elo_scores (s.items.getD i 0) = none →
      ∃ e ∈ get_rankings s, e.index = i ∧ e.elo = (INITIAL_ELO : ℚ)) ∧
    (∀ (s : RankerState ℝ) (wi li wid lid : Nat) (we le : ℝ),
      s.items[wi]? = some wid → s.items[li]? = some lid →
      dictGet s.elo_scores wid = some we → dictGet s.elo_scores lid = some le →
      ∃ s', record_match pow10R s wi li = some s') := by
  constructor
  · intro s i hi hnone
    have hx : ({ rank := 0, index := i, elo := elo_of s i } : RankEntry ℚ) ∈
        rankings_base s :=
      List.mem_map_of_mem _ (List.mem_range.mpr hi)
    have hx' : ({ rank := 0, index := i, elo := elo_of s i } : RankEntry ℚ) ∈
        rankings_sorted s :=
      (List.mergeSort_perm _ rankDescLE).mem_iff.mpr hx
    have helo : elo_of s i = (INITIAL_ELO : ℚ) := by
      unfold elo_of dictGetD
      rw [hnone]
      rfl
    obtain ⟨e, he, hei, hee⟩ := mem_enum_map_rank _ _ hx' 0
    exact ⟨e, he, hei, by rw [hee, helo]⟩
  · intro s wi li wid lid we le hwi hli hwe hle
    refine ⟨⟨s.items,
      dictSet (dictSet s.elo_scores wid (calculate_elo_change pow10R we le).1) lid
        (calculate_elo_change pow10R we le).2,
      s.match_history ++ [⟨wi, li, we, le, (calculate_elo_change pow10R we le).1,
        (calculate_elo_change pow10R we le).2⟩]⟩, ?_⟩
    unfold record_match
    rw [hwi, hli]
    simp only [Option.some_bind]
    rw [hwe, hle]
    simp only [Option.some_bind]

/-- Witness for the amended C7 on a two-item state whose second key is
absent from the rating table. -/
theorem absent_key_defaults_witness :
    ∃ e ∈ get_rankings exPartial, e.index = 1 ∧ e.elo = (INITIAL_ELO : ℚ) :=
  absent_key_defaults.1 exPartial 1 (by decide) (by decide)

/-- Updating a key makes later lookups of that key see the new value. -/
theorem dictGet_dictSet_self {α : Type} (d : List (Nat × α)) (k : Nat) (v : α) :
    dictGet (dictSet d k v) k = some v := by
  induction d with
  | nil =>
    rw [dictSet, dictGet, List.find?_cons_of_pos _ (by simp)]
    rfl
  | cons p rest ih =>
    rw [dictSet]
    by_cases h : p.1 = k
    · rw [if_pos h, dictGet, List.find?_cons_of_pos _ (by simp)]
      rfl
    · rw [if_neg h, dictGet, List.find?_cons_of_neg _ (by simpa using h)]
      exact ih

/-- Updating a key leaves lookups of every other key unchanged. -/
theorem dictGet_dictSet_ne {α : Type} (d : List (Nat × α)) (k k' : Nat) (v : α)
    (h : k' ≠ k) : dictGet (dictSet d k v) k' = dictGet d k' := by
  induction d with
  | nil =>
    rw [dictSet, dictGet, List.find?_cons_of_neg _ (by simpa using Ne.symm h)]
    rfl
  | cons p rest ih =>
    rw [dictSet]
    by_cases hp : p.1 = k
    · rw [if_pos hp, dictGet, dictGet,
        List.find?_cons_of_neg _ (by simpa using Ne.symm h),
        List.find?_cons_of_neg _ (by simpa [hp] using Ne.symm h)]
    · rw [if_neg hp, dictGet, dictGet]
      by_cases hk' : p.1 = k'
      · rw [List.find?_cons_of_pos _ (by simpa using hk'),
          List.find?_cons_of_pos _ (by simpa using hk')]
      · rw [List.find?_cons_of_neg _ (by simpa using hk'),
          List.find?_cons_of_neg _ (by simpa using hk')]
        exact ih

/-- C10: record_match modifies at most the winner's and loser's rating
table entries, and appends exactly one history entry whose before/after
ratings equal the table's values before and after the update. -/
theorem record_match_frame (s s' : RankerState ℝ) (wi li wid lid : Nat)
    (hwid : s.items[wi]? = some wid) (hlid : s.items[li]? = some lid)
    (hne : wid ≠ lid)
    (hr : record_match pow10R s wi li = some s') :
    (∀ k, k ≠ wid → k ≠ lid → dictGet s'.elo_scores k = dictGet s.elo_scores k) ∧
    s'.match_history.length = s.match_history.length + 1 ∧
    s'.match_history.take s.match_history.length = s.match_history ∧
    ∀ m ∈ s'.match_history.drop s.match_history.length,
      some m.winner_elo_before = dictGet s.elo_scores wid ∧
      some m.loser_elo_before = dictGet s.elo_scores lid ∧
      dictGet s'.elo_scores wid = some m.winner_elo_after ∧
      dictGet s'.elo_scores lid = some m.loser_elo_after := by
  unfold record_match at hr
  rw [hwid, hlid] at hr
  simp only [Option.some_bind] at hr
  rcases hwe : dictGet s.elo_scores wid with _ | we <;> rw [hwe] at hr
  · simp at hr
  simp only [Option.some_bind] at hr
  rcases hle : dictGet s.elo_scores lid with _ | le <;> rw [hle] at hr
  · simp at hr
  simp only [Option.some_bind] at hr
  injection hr with hr
  subst hr
  refine ⟨?_, by simp, by simp [List.take_left], ?_⟩
  · intro k hk1 hk2
    exact (dictGet_dictSet_ne _ _ _ _ hk2).trans (dictGet_dictSet_ne _ _ _ _ hk1)
  · intro m hm
    simp only [List.drop_left] at hm
    rcases List.mem_singleton.mp hm with rfl
    refine ⟨rfl, rfl, ?_, ?_⟩
    · rw [dictGet_dictSet_ne _ _ _ _ hne, dictGet_dictSet_self]
    · rw [dictGet_dictSet_self]

/-- Transitivity of the descending rating comparison. -/
theorem rankDescLE_trans {α : Type} [LinearOrderedField α] :
    ∀ (a b c : RankEntry α),
      rankDescLE a b = true → rankDescLE b c = true → rankDescLE a c = true := by
  intro a b c hab hbc
  simp only [rankDescLE, decide_eq_true_eq] at hab hbc ⊢
  exact le_trans hbc hab

/-- Totality of the descending rating comparison. -/
theorem rankDescLE_total {α : Type} [LinearOrderedField α] :
    ∀ (a b : RankEntry α), rankDescLE a b || rankDescLE b a := by
  intro a b
  simp only [rankDescLE, Bool.or_eq_true, decide_eq_true_eq]
  exact le_total b.elo a.elo

/-- The unsorted rankings list has no duplicate entries. -/
theorem rankings_base_nodup {α : Type} [LinearOrderedField α] (s : RankerState α) :
    (rankings_base s).Nodup :=
  (List.nodup_range _).map (fun a b h => congrArg RankEntry.index h)

/-- Shape of the members of the unsorted rankings list. -/
theorem mem_rankings_base {α : Type} [LinearOrderedField α] {s : RankerState α}
    {x : RankEntry α} :
    x ∈ rankings_base s ↔
      x.index < s.items.length ∧ x = ⟨0, x.index, elo_of s x.index⟩ := by
  constructor
  · intro hx
    obtain ⟨idx, hidx, rfl⟩ := List.mem_map.mp hx
    exact ⟨List.mem_range.mp hidx, rfl⟩
  · rintro ⟨h1, h2⟩
    rw [h2]
    exact List.mem_map_of_mem _ (List.mem_range.mpr h1)

/-- Length of the unsorted rankings list. -/
theorem rankings_base_length {α : Type} [LinearOrderedField α] (s : RankerState α) :
    (rankings_base s).length = s.items.length := by
  simp [rankings_base]

/-- The entry for row `v` sits at position `v` of the unsorted list. -/
theorem rankings_base_get {α : Type} [LinearOrderedField α] (s : RankerState α)
    (v : Nat) (hv : v < (rankings_base s).length) :
    (rankings_base s).get ⟨v, hv⟩ = ⟨0, v, elo_of s v⟩ := by
  simp [rankings_base]

/-- Two base entries with increasing row indices form a sublist of the
unsorted rankings list. -/
theorem pair_sublist_rankings_base {α : Type} [LinearOrderedField α]
    (s : RankerState α) (x y : RankEntry α)
    (hx : x ∈ rankings_base s) (hy : y ∈ rankings_base s)
    (hxy : x.index < y.index) : List.Sublist [x, y] (rankings_base s) := by
  obtain ⟨hxn, hxe⟩ := mem_rankings_base.mp hx
  obtain ⟨hyn, hye⟩ := mem_rankings_base.mp hy
  have hxv : x.index < (rankings_base s).length := by
    rw [rankings_base_length]
    exact hxn
  have hyv : y.index < (rankings_base s).length := by
    rw [rankings_base_length]
    exact hyn
  have hsub := @List.map_getElem_sublist _ (rankings_base s)
    [⟨x.index, hxv⟩, ⟨y.index, hyv⟩] (List.pairwise_pair.mpr hxy)
  have hgx : (rankings_base s)[x.index] = x := by
    rw [show (rankings_base s)[x.index] = (rankings_base s).get ⟨x.index, hxv⟩ from rfl,
      rankings_base_get]
    exact hxe.symm
  have hgy : (rankings_base s)[y.index] = y := by
    rw [show (rankings_base s)[y.index] = (rankings_base s).get ⟨y.index, hyv⟩ from rfl,
      rankings_base_get]
    exact hye.symm
  simpa [hgx, hgy] using hsub

/-- The sorted rankings list has no duplicate entries. -/
theorem rankings_sorted_nodup {α : Type} [LinearOrderedField α] (s : RankerState α) :
    (rankings_sorted s).Nodup :=
  ((List.mergeSort_perm (rankings_base s) rankDescLE).nodup_iff).mpr
    (rankings_base_nodup s)

/-- The sorted rankings list is pairwise descending in rating. -/
theorem rankings_sorted_pairwise {α : Type} [LinearOrderedField α]
    (s : RankerState α) :
    (rankings_sorted s).Pairwise (fun a b => rankDescLE a b = true) :=
  List.sorted_mergeSort rankDescLE_trans rankDescLE_total (rankings_base s)

/-- Members of the sorted rankings list are members of the unsorted one. -/
theorem mem_rankings_sorted {α : Type} [LinearOrderedField α] {s : RankerState α}
    {x : RankEntry α} (hx : x ∈ rankings_sorted s) : x ∈ rankings_base s :=
  (List.mergeSort_perm (rankings_base s) rankDescLE).mem_iff.mp hx

/-- Length of the output of get_rankings. -/
theorem get_rankings_length {α : Type} [LinearOrderedField α] (s : RankerState α) :
    (get_rankings s).length = s.items.length := by
  simp [get_rankings, rankings_sorted, rankings_base]

/-- Entry `i` of get_rankings is entry `i` of the sorted list with its rank
overwritten by `i + 1`. -/
theorem get_rankings_get {α : Type} [LinearOrderedField α] (s : RankerState α)
    (i : Nat) (hi : i < (get_rankings s).length)
    (hi' : i < (rankings_sorted s).length) :
    (get_rankings s).get ⟨i, hi⟩ =
      ⟨i + 1, ((rankings_sorted s).get ⟨i, hi'⟩).index,
        ((rankings_sorted s).get ⟨i, hi'⟩).elo⟩ := by
  simp [get_rankings, List.get_eq_getElem, List.getElem_enum]

/-- C8: get_rankings returns one entry per item, sorted by rating in
descending order, with ranks 1, 2, ..., n in output order, and equal
ratings keeping the ascending row order of the iteration over items
(stable sort). -/
theorem get_rankings_spec (s : RankerState ℚ) :
    (get_rankings s).length = s.items.length ∧
    (∀ (i j : Nat) (hi : i < (get_rankings s).length)
        (hj : j < (get_rankings s).length), i < j →
      ((get_rankings s).get ⟨j, hj⟩).elo ≤ ((get_rankings s).get ⟨i, hi⟩).elo) ∧
    (∀ (i : Nat) (hi : i < (get_rankings s).length),
      ((get_rankings s).get ⟨i, hi⟩).rank = i + 1) ∧
    (∀ (i j : Nat) (hi : i < (get_rankings s).length)
        (hj : j < (get_rankings s).length), i < j →
      ((get_rankings s).get ⟨i, hi⟩).elo = ((get_rankings s).get ⟨j, hj⟩).elo →
      ((get_rankings s).get ⟨i, hi⟩).index < ((get_rankings s).get ⟨j, hj⟩).index) := by
  have hlen : (get_rankings s).length = (rankings_sorted s).length := by
    simp [get_rankings]
  refine ⟨get_rankings_length s, ?_, ?_, ?_⟩
  · intro i j hi hj hij
    have hi' : i < (rankings_sorted s).length := hlen ▸ hi
    have hj' : j < (rankings_sorted s).length := hlen ▸ hj
    rw [get_rankings_get s i hi hi', get_rankings_get s j hj hj']
    have hp := List.pairwise_iff_getElem.mp (rankings_sorted_pairwise s) i j hi' hj' hij
    simp only [rankDescLE, decide_eq_true_eq] at hp
    simpa [List.get_eq_getElem] using hp
  · intro i hi
    have hi' : i < (rankings_sorted s).length := hlen ▸ hi
    rw [get_rankings_get s i hi hi']
  · intro i j hi hj hij heq
    have hi' : i < (rankings_sorted s).length := hlen ▸ hi
    have hj' : j < (rankings_sorted s).length := hlen ▸ hj
    rw [get_rankings_get s i hi hi', get_rankings_get s j hj hj'] at heq ⊢
    simp only at heq ⊢
    have hxmem : (rankings_sorted s).get ⟨i, hi'⟩ ∈ rankings_sorted s :=
      List.get_mem _ _ _
    have hymem : (rankings_sorted s).get ⟨j, hj'⟩ ∈ rankings_sorted s :=
      List.get_mem _ _ _
    have hxb := mem_rankings_sorted hxmem
    have hyb := mem_rankings_sorted hymem
    obtain ⟨hxn, hxe⟩ := mem_rankings_base.mp hxb
    obtain ⟨hyn, hye⟩ := mem_rankings_base.mp hyb
    have hne : ((rankings_sorted s).get ⟨i, hi'⟩).index ≠
        ((rankings_sorted s).get ⟨j, hj'⟩).index := by
      intro he
      have hxy : (rankings_sorted s).get ⟨i, hi'⟩ = (rankings_sorted s).get ⟨j, hj'⟩ := by
        rw [hxe, hye, he]
      have := (rankings_sorted_nodup s).get_inj_iff.mp hxy
      rw [Fin.mk.injEq] at this
      omega
    by_contra hcon
    push_neg at hcon
    have hyx : ((rankings_sorted s).get ⟨j, hj'⟩).index <
        ((rankings_sorted s).get ⟨i, hi'⟩).index :=
      lt_of_le_of_ne hcon (fun h => hne h.symm)
    have hsub : List.Sublist
        [(rankings_sorted s).get ⟨j, hj'⟩, (rankings_sorted s).get ⟨i, hi'⟩]
        (rankings_base s) :=
      pair_sublist_rankings_base s _ _ hyb hxb hyx
    have hpair : rankDescLE ((rankings_sorted s).get ⟨j, hj'⟩)
        ((rankings_sorted s).get ⟨i, hi'⟩) = true := by
      simp only [rankDescLE, decide_eq_true_eq]
      exact le_of_eq heq
    have hsub' : List.Sublist
        [(rankings_sorted s).get ⟨j, hj'⟩, (rankings_sorted s).get ⟨i, hi'⟩]
        (rankings_sorted s) :=
      List.pair_sublist_mergeSort rankDescLE_trans rankDescLE_total hpair hsub
    obtain ⟨is, his, hisp⟩ := List.sublist_eq_map_getElem hsub'
    rcases is with _ | ⟨p, _ | ⟨q, _ | ⟨r, t⟩⟩⟩ <;> simp at his
    obtain ⟨hisy, hisx⟩ := his
    have hpq : p < q := by
      rcases List.pairwise_cons.mp hisp with ⟨hq, -⟩
      exact hq q (List.mem_singleton_self q)
    have hpj : p = (⟨j, hj'⟩ : Fin (rankings_sorted s).length) :=
      (rankings_sorted_nodup s).get_inj_iff.mp
        (by rw [List.get_eq_getElem, List.get_eq_getElem]; exact hisy.symm)
    have hqi : q = (⟨i, hi'⟩ : Fin (rankings_sorted s).length) :=
      (rankings_sorted_nodup s).get_inj_iff.mp
        (by rw [List.get_eq_getElem, List.get_eq_getElem]; exact hisx.symm)
    rw [hpj, hqi] at hpq
    simp only [Fin.mk_lt_mk] at hpq
    omega

/-- The recent-match test is symmetric in the two rows. -/
theorem was_recently_matched_comm {α : Type} (h : List (Outcome α)) (a b n : Nat) :
    was_recently_matched h a b n = was_recently_matched h b a n := by
  simp only [was_recently_matched]
  congr 1
  funext m
  exact Bool.or_comm _ _

/-- Both components of a scanned pair are members of the scanned list. -/
theorem pairScan_subset {β : Type} :
    ∀ (l : List β) (q : β × β), q ∈ pairScan l → q.1 ∈ l ∧ q.2 ∈ l := by
  intro l
  induction l with
  | nil =>
    intro q hq
    simp [pairScan] at hq
  | cons x xs ih =>
    intro q hq
    rw [pairScan] at hq
    rcases List.mem_append.mp hq with h1 | h1
    · obtain ⟨y, hy, rfl⟩ := List.mem_map.mp h1
      exact ⟨List.mem_cons_self x xs, List.mem_cons_of_mem _ hy⟩
    · obtain ⟨h2, h3⟩ := ih q h1
      exact ⟨List.mem_cons_of_mem _ h2, List.mem_cons_of_mem _ h3⟩

/-- Any two distinct members of a list appear together, in one of the two
orders, in its pair scan. -/
theorem pairScan_cover {β : Type} :
    ∀ (l : List β) (x y : β), x ∈ l → y ∈ l → x ≠ y →
      (x, y) ∈ pairScan l ∨ (y, x) ∈ pairScan l := by
  intro l
  induction l with
  | nil =>
    intro x y hx
    exact absurd hx (List.not_mem_nil x)
  | cons h t ih =>
    intro x y hx hy hxy
    rcases List.mem_cons.mp hx with rfl | hx'
    · rcases List.mem_cons.mp hy with rfl | hy'
      · exact absurd rfl hxy
      · left
        rw [pairScan]
        exact List.mem_append_left _ (List.mem_map_of_mem _ hy')
    · rcases List.mem_cons.mp hy with rfl | hy'
      · right
        rw [pairScan]
        exact List.mem_append_left _ (List.mem_map_of_mem _ hx')
      · rcases ih x y hx' hy' hxy with h1 | h1
        · left
          rw [pairScan]
          exact List.mem_append_right _ h1
        · right
          rw [pairScan]
          exact List.mem_append_right _ h1

/-- When mapping the list to distinct keys, the two components of any
scanned pair have distinct keys. -/
theorem pairScan_map_ne {β γ : Type} (f : β → γ) :
    ∀ (l : List β), (l.map f).Nodup → ∀ q ∈ pairScan l, f q.1 ≠ f q.2 := by
  intro l
  induction l with
  | nil =>
    intro _ q hq
    simp [pairScan] at hq
  | cons x xs ih =>
    intro hnd q hq
    rw [List.map_cons, List.nodup_cons] at hnd
    obtain ⟨hx, hnd'⟩ := hnd
    rw [pairScan] at hq
    rcases List.mem_append.mp hq with h1 | h1
    · obtain ⟨y, hy, rfl⟩ := List.mem_map.mp h1
      intro he
      apply hx
      rw [he]
      exact List.mem_map_of_mem f hy
    · exact ih hnd' q h1

/-- Shape of the members of the apartment_elos list. -/
theorem mem_apartment_elos {α : Type} [LinearOrderedField α] {s : RankerState α}
    {x : Nat × α} :
    x ∈ apartment_elos s ↔ x.1 < s.items.length ∧ x = (x.1, elo_of s x.1) := by
  constructor
  · intro hx
    obtain ⟨u, hu, rfl⟩ := List.mem_map.mp hx
    exact ⟨List.mem_range.mp hu, rfl⟩
  · rintro ⟨h1, h2⟩
    rw [h2]
    exact List.mem_map_of_mem _ (List.mem_range.mpr h1)

/-- The keys of the apartment_elos list are exactly the row numbers. -/
theorem apartment_elos_map_fst {α : Type} [LinearOrderedField α]
    (s : RankerState α) :
    (apartment_elos s).map Prod.fst = List.range s.items.length := by
  unfold apartment_elos
  rw [List.map_map]
  rw [show (Prod.fst ∘ fun idx => ((idx, elo_of s idx) : Nat × α)) = id from rfl]
  exact List.map_id _

/-- A pair not recently matched makes the loop body return a candidate. -/
theorem bestStep_good_some {α : Type} [LinearOrderedField α]
    (hist : List (Outcome α)) (acc : Option ((Nat × Nat) × α))
    (q : (Nat × α) × (Nat × α))
    (hgood : was_recently_matched hist q.1.1 q.2.1 5 = false) :
    ∃ y, bestStep hist acc q = some y := by
  cases acc with
  | none =>
    exact ⟨((q.1.1, q.2.1), |q.1.2 - q.2.2|), by simp [bestStep, hgood]⟩
  | some x =>
    obtain ⟨bp0, d0⟩ := x
    by_cases hlt : |q.1.2 - q.2.2| < d0
    · exact ⟨((q.1.1, q.2.1), |q.1.2 - q.2.2|), by simp [bestStep, hgood, hlt]⟩
    · exact ⟨(bp0, d0), by simp [bestStep, hgood, hlt]⟩

/-- The loop body never forgets a candidate. -/
theorem bestStep_some_some {α : Type} [LinearOrderedField α]
    (hist : List (Outcome α)) (x : (Nat × Nat) × α) (q : (Nat × α) × (Nat × α)) :
    ∃ y, bestStep hist (some x) q = some y := by
  obtain ⟨bp0, d0⟩ := x
  by_cases hg : was_recently_matched hist q.1.1 q.2.1 5 = true
  · exact ⟨(bp0, d0), by simp [bestStep, hg]⟩
  · rw [Bool.not_eq_true] at hg
    exact bestStep_good_some hist (some (bp0, d0)) q hg

/-- Once the loop holds a candidate it ends with a candidate. -/
theorem bestLoop_isSome {α : Type} [LinearOrderedField α]
    (hist : List (Outcome α)) :
    ∀ (ps : List ((Nat × α) × (Nat × α))) (x : (Nat × Nat) × α),
      ∃ y, ps.foldl (bestStep hist) (some x) = some y := by
  intro ps
  induction ps with
  | nil =>
    intro x
    exact ⟨x, rfl⟩
  | cons q ps ih =>
    intro x
    rw [List.foldl_cons]
    obtain ⟨y, hy⟩ := bestStep_some_some hist x q
    rw [hy]
    exact ih y

/-- If some scanned pair was not recently matched, the loop returns a
candidate. -/
theorem bestLoop_ne_none {α : Type} [LinearOrderedField α]
    (hist : List (Outcome α)) :
    ∀ (ps : List ((Nat × α) × (Nat × α))) (acc : Option ((Nat × Nat) × α))
      (q : (Nat × α) × (Nat × α)), q ∈ ps →
      was_recently_matched hist q.1.1 q.2.1 5 = false →
      ps.foldl (bestStep hist) acc ≠ none := by
  intro ps
  induction ps with
  | nil =>
    intro acc q hq
    exact absurd hq (List.not_mem_nil q)
  | cons q0 ps ih =>
    intro acc q hq hgood
    rw [List.foldl_cons]
    rcases List.mem_cons.mp hq with rfl | hq'
    · obtain ⟨y, hy⟩ := bestStep_good_some hist acc q hgood
      rw [hy]
      obtain ⟨z, hz⟩ := bestLoop_isSome hist ps y
      rw [hz]
      simp
    · exact ih (bestStep hist acc q0) q hq' hgood

/-- Loop invariant of the best-pair search: the returned candidate comes
from an unskipped scanned pair (or from the initial accumulator) and its
difference is minimal among all unskipped scanned pairs and at most the
accumulator's. -/
theorem bestLoop_min {α : Type} [LinearOrderedField α] (hist : List (Outcome α)) :
    ∀ (ps : List ((Nat × α) × (Nat × α))) (acc : Option ((Nat × Nat) × α))
      (bp : Nat × Nat) (d : α),
      ps.foldl (bestStep hist) acc = some (bp, d) →
      ((∃ q ∈ ps, was_recently_matched hist q.1.1 q.2.1 5 = false ∧
          bp = (q.1.1, q.2.1) ∧ d = |q.1.2 - q.2.2|) ∨ acc = some (bp, d)) ∧
      (∀ q ∈ ps, was_recently_matched hist q.1.1 q.2.1 5 = false →
        d ≤ |q.1.2 - q.2.2|) ∧
      (∀ (bp' : Nat × Nat) (d' : α), acc = some (bp', d') → d ≤ d') := by
  intro ps
  induction ps with
  | nil =>
    intro acc bp d h
    simp only [List.foldl_nil] at h
    refine ⟨Or.inr h, ?_, ?_⟩
    · intro q hq
      exact absurd hq (List.not_mem_nil q)
    · intro bp' d' h'
      rw [h] at h'
      injection h' with h''
      injection h'' with hb hd
      exact le_of_eq hd
  | cons q0 ps ih =>
    intro acc bp d h
    rw [List.foldl_cons] at h
    by_cases hg : was_recently_matched hist q0.1.1 q0.2.1 5 = true
    · have hstep : bestStep hist acc q0 = acc := by simp [bestStep, hg]
      rw [hstep] at h
      obtain ⟨h1, h2, h3⟩ := ih acc bp d h
      refine ⟨?_, ?_, h3⟩
      · rcases h1 with ⟨q', hq', hrest⟩ | h1
        · exact Or.inl ⟨q', List.mem_cons_of_mem _ hq', hrest⟩
        · exact Or.inr h1
      · intro q' hq' hgood
        rcases List.mem_cons.mp hq' with rfl | hq''
        · rw [hg] at hgood
          exact Bool.noConfusion hgood
        · exact h2 q' hq'' hgood
    · rw [Bool.not_eq_true] at hg
      cases acc with
      | none =>
        have hstep : bestStep hist none q0 =
            some ((q0.1.1, q0.2.1), |q0.1.2 - q0.2.2|) := by
          simp [bestStep, hg]
        rw [hstep] at h
        obtain ⟨h1, h2, h3⟩ := ih _ bp d h
        refine ⟨?_, ?_, ?_⟩
        · rcases h1 with ⟨q', hq', hrest⟩ | h1
          · exact Or.inl ⟨q', List.mem_cons_of_mem _ hq', hrest⟩
          · injection h1 with h1'
            injection h1' with hb hd
            exact Or.inl ⟨q0, List.mem_cons_self _ _, hg, hb.symm, hd.symm⟩
        · intro q' hq' hgood
          rcases List.mem_cons.mp hq' with rfl | hq''
          · exact h3 _ _ rfl
          · exact h2 q' hq'' hgood
        · intro bp' d' hacc
          exact absurd hacc (by simp)
      | some x =>
        obtain ⟨bp0, d0⟩ := x
        by_cases hlt : |q0.1.2 - q0.2.2| < d0
        · have hstep : bestStep hist (some (bp0, d0)) q0 =
              some ((q0.1.1, q0.2.1), |q0.1.2 - q0.2.2|) := by
            simp [bestStep, hg, hlt]
          rw [hstep] at h
          obtain ⟨h1, h2, h3⟩ := ih _ bp d h
          refine ⟨?_, ?_, ?_⟩
          · rcases h1 with ⟨q', hq', hrest⟩ | h1
            · exact Or.inl ⟨q', List.mem_cons_of_mem _ hq', hrest⟩
            · injection h1 with h1'
              injection h1' with hb hd
              exact Or.inl ⟨q0, List.mem_cons_self _ _, hg, hb.symm, hd.symm⟩
          · intro q' hq' hgood
            rcases List.mem_cons.mp hq' with rfl | hq''
            · exact h3 _ _ rfl
            · exact h2 q' hq'' hgood
          · intro bp' d' hacc
            injection hacc with hacc'
            injection hacc' with hb' hd'
            subst hd'
            exact le_trans (h3 _ _ rfl) (le_of_lt hlt)
        · have hstep : bestStep hist (some (bp0, d0)) q0 = some (bp0, d0) := by
            simp [bestStep, hg, hlt]
          rw [hstep] at h
          obtain ⟨h1, h2, h3⟩ := ih _ bp d h
          refine ⟨?_, ?_, ?_⟩
          · rcases h1 with ⟨q', hq', hrest⟩ | h1
            · exact Or.inl ⟨q', List.mem_cons_of_mem _ hq', hrest⟩
            · exact Or.inr h1
          · intro q' hq' hgood
            rcases List.mem_cons.mp hq' with rfl | hq''
            · exact le_trans (h3 _ _ rfl) (not_lt.mp hlt)
            · exact h2 q' hq'' hgood
          · intro bp' d' hacc
            injection hacc with hacc'
            injection hacc' with hb' hd'
            subst hd'
            exact h3 _ _ rfl

unseal List.mergeSort List.merge in
/-- C4: among all pairs of distinct rows not matched within the last 5
outcomes, get_active_learning_pair returns a pair with minimum absolute
rating difference; ties are broken by the first pair found in the
ascending-index scan over the internally sorted list, as in the source.
On ratings {A:1000, B:1010, C:1200} with empty history it returns the
unordered pair {A, B} (concretely (1, 0)); on the tie {1000, 1010, 1020}
it returns the first-found minimal pair (2, 1). -/
theorem active_learning_min_diff :
    (∀ (s : RankerState ℚ) (choice : Nat × Nat) (i j a b : Nat),
      eligible_pair s a b →
      get_active_learning_pair s choice = some (i, j) →
      eligible_pair s i j ∧
        |elo_of s i - elo_of s j| ≤ |elo_of s a - elo_of s b|) ∧
    (∀ choice : Nat × Nat, get_active_learning_pair exActive choice = some (1, 0)) ∧
    (∀ choice : Nat × Nat, get_active_learning_pair exTie choice = some (2, 1)) := by
  refine ⟨?_, fun choice => by with_unfolding_all rfl,
    fun choice => by with_unfolding_all rfl⟩
  intro s choice i j a b hab hres
  obtain ⟨han, hbn, hne_ab, hnm⟩ := hab
  unfold get_active_learning_pair at hres
  rw [if_neg (by omega)] at hres
  have hma : ((a, elo_of s a) : Nat × ℚ) ∈ (apartment_elos s).mergeSort eloDescLE :=
    (List.mergeSort_perm _ _).mem_iff.mpr (mem_apartment_elos.mpr ⟨han, rfl⟩)
  have hmb : ((b, elo_of s b) : Nat × ℚ) ∈ (apartment_elos s).mergeSort eloDescLE :=
    (List.mergeSort_perm _ _).mem_iff.mpr (mem_apartment_elos.mpr ⟨hbn, rfl⟩)
  have hneq : ((a, elo_of s a) : Nat × ℚ) ≠ (b, elo_of s b) := by
    intro he
    exact hne_ab (congrArg Prod.fst he)
  have hgood_or : ∃ q' ∈ pairScan ((apartment_elos s).mergeSort eloDescLE),
      was_recently_matched s.match_history q'.1.1 q'.2.1 5 = false ∧
      |q'.1.2 - q'.2.2| = |elo_of s a - elo_of s b| := by
    rcases pairScan_cover _ _ _ hma hmb hneq with h1 | h1
    · exact ⟨_, h1, hnm, rfl⟩
    · refine ⟨_, h1, ?_, ?_⟩
      · rw [was_recently_matched_comm]
        exact hnm
      · exact abs_sub_comm _ _
  obtain ⟨q', hq'mem, hq'good, hq'diff⟩ := hgood_or
  cases hfold : (pairScan ((apartment_elos s).mergeSort eloDescLE)).foldl
      (bestStep s.match_history) none with
  | none => exact absurd hfold (bestLoop_ne_none _ _ _ _ hq'mem hq'good)
  | some x =>
    obtain ⟨bp, d⟩ := x
    rw [hfold] at hres
    injection hres with hres'
    obtain ⟨h1, h2, h3⟩ := bestLoop_min s.match_history _ none bp d hfold
    rcases h1 with ⟨q0, hq0mem, hq0good, hq0bp, hq0d⟩ | hbad
    · rw [hq0bp] at hres'
      injection hres' with hi hj
      subst hi
      subst hj
      have hsub0 := pairScan_subset _ q0 hq0mem
      have hq01 : q0.1 ∈ apartment_elos s :=
        (List.mergeSort_perm _ _).mem_iff.mp hsub0.1
      have hq02 : q0.2 ∈ apartment_elos s :=
        (List.mergeSort_perm _ _).mem_iff.mp hsub0.2
      have hfst : (((apartment_elos s).mergeSort eloDescLE).map Prod.fst).Nodup := by
        refine (((List.mergeSort_perm (apartment_elos s) eloDescLE).map
          Prod.fst).nodup_iff).mpr ?_
        rw [apartment_elos_map_fst]
        exact List.nodup_range _
      have hne0 : q0.1.1 ≠ q0.2.1 := pairScan_map_ne Prod.fst _ hfst q0 hq0mem
      obtain ⟨hu1, hu2⟩ := mem_apartment_elos.mp hq01
      obtain ⟨hv1, hv2⟩ := mem_apartment_elos.mp hq02
      refine ⟨⟨hu1, hv1, hne0, hq0good⟩, ?_⟩
      have he1 : q0.1.2 = elo_of s q0.1.1 := congrArg Prod.snd hu2
      have he2 : q0.2.2 = elo_of s q0.2.1 := congrArg Prod.snd hv2
      rw [← hq'diff]
      rw [show |elo_of s q0.1.1 - elo_of s q0.2.1| = d from by rw [hq0d, he1, he2]]
      exact h2 q' hq'mem hq'good
    · exact Option.noConfusion hbad

/-- Witness for C4 on exActive: (0, 2) is an eligible pair, and the
returned pair (1, 0) is eligible with a difference at most that of
(0, 2). -/
theorem active_learning_min_diff_witness :
    eligible_pair exActive 0 2 ∧
    (eligible_pair exActive 1 0 ∧
      |elo_of exActive 1 - elo_of exActive 0| ≤
        |elo_of exActive 0 - elo_of exActive 2|) :=
  ⟨by decide, active_learning_min_diff.1 exActive (9, 9) 1 0 0 2 (by decide)
    (active_learning_min_diff.2.1 (9, 9))⟩

/-- Shape of the members of the match_counts list. -/
theorem mem_match_counts {α : Type} {s : RankerState α} {x : Nat × Nat} :
    x ∈ match_counts s ↔
      x.1 < s.items.length ∧ x = (x.1, match_count s.match_history x.1) := by
  constructor
  · intro hx
    obtain ⟨u, hu, rfl⟩ := List.mem_map.mp hx
    exact ⟨List.mem_range.mp hu, rfl⟩
  · rintro ⟨h1, h2⟩
    rw [h2]
    exact List.mem_map_of_mem _ (List.mem_range.mpr h1)

/-- The keys of the match_counts list are exactly the row numbers. -/
theorem match_counts_map_fst {α : Type} (s : RankerState α) :
    (match_counts s).map Prod.fst = List.range s.items.length := by
  unfold match_counts
  rw [List.map_map]
  rw [show (Prod.fst ∘ fun idx =>
    ((idx, match_count s.match_history idx) : Nat × Nat)) = id from rfl]
  exact List.map_id _

/-- Transitivity of the ascending count comparison. -/
theorem countAscLE_trans :
    ∀ (a b c : Nat × Nat),
      countAscLE a b = true → countAscLE b c = true → countAscLE a c = true := by
  intro a b c hab hbc
  simp only [countAscLE, decide_eq_true_eq] at hab hbc ⊢
  exact le_trans hab hbc

/-- Totality of the ascending count comparison. -/
theorem countAscLE_total :
    ∀ (a b : Nat × Nat), countAscLE a b || countAscLE b a := by
  intro a b
  simp only [countAscLE, Bool.or_eq_true, decide_eq_true_eq]
  exact le_total a.2 b.2

/-- The match_counts list has no duplicate entries. -/
theorem match_counts_nodup {α : Type} (s : RankerState α) :
    (match_counts s).Nodup :=
  (List.nodup_range _).map (fun a b h => congrArg Prod.fst h)

/-- Length of the match_counts list. -/
theorem match_counts_length {α : Type} (s : RankerState α) :
    (match_counts s).length = s.items.length := by
  simp [match_counts]

/-- The entry for row `v` sits at position `v` of the match_counts list. -/
theorem match_counts_get {α : Type} (s : RankerState α) (v : Nat)
    (hv : v < (match_counts s).length) :
    (match_counts s).get ⟨v, hv⟩ = (v, match_count s.match_history v) := by
  simp [match_counts]

/-- Two count entries with increasing row indices form a sublist of the
match_counts list. -/
theorem pair_sublist_match_counts {α : Type} (s : RankerState α)
    (x y : Nat × Nat) (hx : x ∈ match_counts s) (hy : y ∈ match_counts s)
    (hxy : x.1 < y.1) : List.Sublist [x, y] (match_counts s) := by
  obtain ⟨hxn, hxe⟩ := mem_match_counts.mp hx
  obtain ⟨hyn, hye⟩ := mem_match_counts.mp hy
  have hxv : x.1 < (match_counts s).length := by
    rw [match_counts_length]
    exact hxn
  have hyv : y.1 < (match_counts s).length := by
    rw [match_counts_length]
    exact hyn
  have hsub := @List.map_getElem_sublist _ (match_counts s)
    [⟨x.1, hxv⟩, ⟨y.1, hyv⟩] (List.pairwise_pair.mpr hxy)
  have hgx : (match_counts s)[x.1] = x := by
    rw [show (match_counts s)[x.1] = (match_counts s).get ⟨x.1, hxv⟩ from rfl,
      match_counts_get]
    exact hxe.symm
  have hgy : (match_counts s)[y.1] = y := by
    rw [show (match_counts s)[y.1] = (match_counts s).get ⟨y.1, hyv⟩ from rfl,
      match_counts_get]
    exact hye.symm
  simpa [hgx, hgy] using hsub

/-- The sorted count list has no duplicate entries. -/
theorem sorted_match_counts_nodup {α : Type} (s : RankerState α) :
    (sorted_match_counts s).Nodup :=
  ((List.mergeSort_perm (match_counts s) countAscLE).nodup_iff).mpr
    (match_counts_nodup s)

/-- The sorted count list is pairwise ascending in count. -/
theorem sorted_match_counts_pairwise {α : Type} (s : RankerState α) :
    (sorted_match_counts s).Pairwise (fun a b => countAscLE a b = true) :=
  List.sorted_mergeSort countAscLE_trans countAscLE_total (match_counts s)

/-- Members of the sorted count list are members of match_counts. -/
theorem mem_sorted_match_counts {α : Type} {s : RankerState α}
    {x : Nat × Nat} (hx : x ∈ sorted_match_counts s) : x ∈ match_counts s :=
  (List.mergeSort_perm (match_counts s) countAscLE).mem_iff.mp hx

/-- The keys of the sorted count list are distinct. -/
theorem sorted_match_counts_fst_nodup {α : Type} (s : RankerState α) :
    ((sorted_match_counts s).map Prod.fst).Nodup := by
  unfold sorted_match_counts
  refine (((List.mergeSort_perm (match_counts s) countAscLE).map
    Prod.fst).nodup_iff).mpr ?_
  rw [match_counts_map_fst]
  exact List.nodup_range _

/-- The sorted count list is ordered by (count, then original row index):
a strictly smaller count, or equal counts with a strictly smaller row
index, at every earlier position (stability of the sort). -/
theorem sorted_match_counts_order (s : RankerState ℚ) (p q : Nat)
    (hp : p < (sorted_match_counts s).length)
    (hq : q < (sorted_match_counts s).length) (hpq : p < q) :
    ((sorted_match_counts s).get ⟨p, hp⟩).2 <
      ((sorted_match_counts s).get ⟨q, hq⟩).2 ∨
    (((sorted_match_counts s).get ⟨p, hp⟩).2 =
        ((sorted_match_counts s).get ⟨q, hq⟩).2 ∧
      ((sorted_match_counts s).get ⟨p, hp⟩).1 <
        ((sorted_match_counts s).get ⟨q, hq⟩).1) := by
  have hpair := List.pairwise_iff_getElem.mp (sorted_match_counts_pairwise s)
    p q hp hq hpq
  simp only [countAscLE, decide_eq_true_eq] at hpair
  rcases lt_or_eq_of_le hpair with hlt | heq2
  · left
    simpa [List.get_eq_getElem] using hlt
  · right
    refine ⟨by simpa [List.get_eq_getElem] using heq2, ?_⟩
    by_contra hcon
    push_neg at hcon
    have hxmem : (sorted_match_counts s).get ⟨p, hp⟩ ∈ sorted_match_counts s :=
      List.get_mem _ _ _
    have hymem : (sorted_match_counts s).get ⟨q, hq⟩ ∈ sorted_match_counts s :=
      List.get_mem _ _ _
    have hxb := mem_sorted_match_counts hxmem
    have hyb := mem_sorted_match_counts hymem
    obtain ⟨hxn, hxe⟩ := mem_match_counts.mp hxb
    obtain ⟨hyn, hye⟩ := mem_match_counts.mp hyb
    have hne : ((sorted_match_counts s).get ⟨p, hp⟩).1 ≠
        ((sorted_match_counts s).get ⟨q, hq⟩).1 := by
      intro he
      have hxy : (sorted_match_counts s).get ⟨p, hp⟩ =
          (sorted_match_counts s).get ⟨q, hq⟩ := by
        rw [hxe, hye, he]
      have := (sorted_match_counts_nodup s).get_inj_iff.mp hxy
      rw [Fin.mk.injEq] at this
      omega
    have hyx : ((sorted_match_counts s).get ⟨q, hq⟩).1 <
        ((sorted_match_counts s).get ⟨p, hp⟩).1 :=
      lt_of_le_of_ne hcon (fun h => hne h.symm)
    have hsub : List.Sublist
        [(sorted_match_counts s).get ⟨q, hq⟩,
          (sorted_match_counts s).get ⟨p, hp⟩] (match_counts s) :=
      pair_sublist_match_counts s _ _ hyb hxb hyx
    have hpair2 : countAscLE ((sorted_match_counts s).get ⟨q, hq⟩)
        ((sorted_match_counts s).get ⟨p, hp⟩) = true := by
      simp only [countAscLE, decide_eq_true_eq]
      exact le_of_eq (by simpa [List.get_eq_getElem] using heq2.symm)
    have hsub2 : List.Sublist
        [(sorted_match_counts s).get ⟨q, hq⟩,
          (sorted_match_counts s).get ⟨p, hp⟩] (sorted_match_counts s) :=
      List.pair_sublist_mergeSort countAscLE_trans countAscLE_total hpair2 hsub
    obtain ⟨is, his, hisp⟩ := List.sublist_eq_map_getElem hsub2
    rcases is with _ | ⟨pp, _ | ⟨qq, _ | ⟨rr, tt⟩⟩⟩ <;> simp at his
    obtain ⟨hisy, hisx⟩ := his
    have hppqq : pp < qq := by
      rcases List.pairwise_cons.mp hisp with ⟨hq2, -⟩
      exact hq2 qq (List.mem_singleton_self qq)
    have hpj : pp = (⟨q, hq⟩ : Fin (sorted_match_counts s).length) :=
      (sorted_match_counts_nodup s).get_inj_iff.mp
        (by rw [List.get_eq_getElem, List.get_eq_getElem]; exact hisy.symm)
    have hqi : qq = (⟨p, hp⟩ : Fin (sorted_match_counts s).length) :=
      (sorted_match_counts_nodup s).get_inj_iff.mp
        (by rw [List.get_eq_getElem, List.get_eq_getElem]; exact hisx.symm)
    rw [hpj, hqi] at hppqq
    simp only [Fin.mk_lt_mk] at hppqq
    omega

/-- C9: get_balanced_pair scans pairs of the count list sorted in
ascending (count, then original row index) order (conjunct 1, including
stability on count ties) and returns the FIRST scanned pair of distinct
rows whose appearance counts are both at most 2 and that was not recently
matched: whenever such a pair exists, the returned pair satisfies those
conditions and every pair strictly earlier in the scan fails the test
(conjunct 2).  When no such pair exists it falls back to active-learning
selection (conjunct 3).  On the spec's four-item scenario (rows 2, 3 with
three appearances, rows 0, 1 with none) it returns (0, 1), preferring
0-appearance rows over 3-appearance rows; on the five-item scenario with
many passing pairs it returns the two least-matched rows (2, 3), which
discriminates the ascending-(count, index) first-found scan.  The theorems
assume every ledger index is in range, where the total count model agrees
with the KeyError-raising Python dict increments. -/
theorem balanced_pair_spec :
    (∀ (s : RankerState ℚ) (p q : Nat)
        (hp : p < (sorted_match_counts s).length)
        (hq : q < (sorted_match_counts s).length), p < q →
      ((sorted_match_counts s).get ⟨p, hp⟩).2 <
          ((sorted_match_counts s).get ⟨q, hq⟩).2 ∨
        (((sorted_match_counts s).get ⟨p, hp⟩).2 =
            ((sorted_match_counts s).get ⟨q, hq⟩).2 ∧
          ((sorted_match_counts s).get ⟨p, hp⟩).1 <
            ((sorted_match_counts s).get ⟨q, hq⟩).1)) ∧
    (∀ (s : RankerState ℚ) (choice : Nat × Nat) (i j a b : Nat),
      (∀ m ∈ s.match_history,
        m.winner_idx < s.items.length ∧ m.loser_idx < s.items.length) →
      balanced_pair_ok s a b →
      get_balanced_pair s choice = some (i, j) →
      balanced_pair_ok s i j ∧
      ∃ qq pre post, pairScan (sorted_match_counts s) = pre ++ qq :: post ∧
        (i, j) = (qq.1.1, qq.2.1) ∧ low_count_test s qq = true ∧
        ∀ q' ∈ pre, low_count_test s q' = false) ∧
    (∀ (s : RankerState ℚ) (choice : Nat × Nat),
      2 ≤ s.items.length →
      (∀ m ∈ s.match_history,
        m.winner_idx < s.items.length ∧ m.loser_idx < s.items.length) →
      (∀ a b : Nat, ¬balanced_pair_ok s a b) →
      get_balanced_pair s choice = get_active_learning_pair s choice) ∧
    (∀ choice : Nat × Nat, get_balanced_pair exBalanced choice = some (0, 1)) ∧
    (∀ choice : Nat × Nat, get_balanced_pair exBalanced2 choice = some (2, 3)) := by
  refine ⟨fun s p q hp hq hpq => sorted_match_counts_order s p q hp hq hpq,
    ?_, ?_, fun choice => by with_unfolding_all rfl,
    fun choice => by with_unfolding_all rfl⟩
  · intro s choice i j a b hrange hok hres
    obtain ⟨han, hbn, hneab, hca, hcb, hnm⟩ := hok
    unfold get_balanced_pair at hres
    rw [if_neg (by omega)] at hres
    have hxa : ((a, match_count s.match_history a) : Nat × Nat) ∈
        sorted_match_counts s := by
      unfold sorted_match_counts
      exact (List.mergeSort_perm _ _).mem_iff.mpr (mem_match_counts.mpr ⟨han, rfl⟩)
    have hxb : ((b, match_count s.match_history b) : Nat × Nat) ∈
        sorted_match_counts s := by
      unfold sorted_match_counts
      exact (List.mergeSort_perm _ _).mem_iff.mpr (mem_match_counts.mpr ⟨hbn, rfl⟩)
    have hneq : ((a, match_count s.match_history a) : Nat × Nat) ≠
        (b, match_count s.match_history b) := by
      intro he
      exact hneab (congrArg Prod.fst he)
    have hgood : ∃ q' ∈ pairScan (sorted_match_counts s),
        low_count_test s q' = true := by
      rcases pairScan_cover _ _ _ hxa hxb hneq with h1 | h1
      · refine ⟨_, h1, ?_⟩
        simp only [low_count_test, Bool.and_eq_true, Bool.not_eq_true',
          decide_eq_true_eq]
        exact ⟨⟨hca, hcb⟩, hnm⟩
      · refine ⟨_, h1, ?_⟩
        simp only [low_count_test, Bool.and_eq_true, Bool.not_eq_true',
          decide_eq_true_eq]
        exact ⟨⟨hcb, hca⟩, by rw [was_recently_matched_comm]; exact hnm⟩
    obtain ⟨qg, hqgmem, hqgp⟩ := hgood
    cases hfind : (pairScan (sorted_match_counts s)).find? (low_count_test s) with
    | none =>
      rw [List.find?_eq_none] at hfind
      exact absurd hqgp (hfind qg hqgmem)
    | some q =>
      rw [hfind] at hres
      injection hres with hres2
      obtain ⟨hpq, as0, bs0, hsplit, hpre⟩ := List.find?_eq_some.mp hfind
      have hptrue : low_count_test s q = true := hpq
      simp only [low_count_test, Bool.and_eq_true, Bool.not_eq_true',
        decide_eq_true_eq] at hpq
      obtain ⟨⟨hc1, hc2⟩, hw⟩ := hpq
      have hmemq : q ∈ pairScan (sorted_match_counts s) :=
        List.mem_of_find?_eq_some hfind
      have hsubq := pairScan_subset _ q hmemq
      have h1 : q.1 ∈ match_counts s := mem_sorted_match_counts hsubq.1
      have h2 : q.2 ∈ match_counts s := mem_sorted_match_counts hsubq.2
      obtain ⟨hu1, hu2⟩ := mem_match_counts.mp h1
      obtain ⟨hv1, hv2⟩ := mem_match_counts.mp h2
      have hne0 : q.1.1 ≠ q.2.1 :=
        pairScan_map_ne Prod.fst _ (sorted_match_counts_fst_nodup s) q hmemq
      injection hres2 with hi hj
      subst hi
      subst hj
      have hmc1 : match_count s.match_history q.1.1 = q.1.2 :=
        (congrArg Prod.snd hu2).symm
      have hmc2 : match_count s.match_history q.2.1 = q.2.2 :=
        (congrArg Prod.snd hv2).symm
      refine ⟨⟨hu1, hv1, hne0, hmc1 ▸ hc1, hmc2 ▸ hc2, hw⟩,
        q, as0, bs0, hsplit, rfl, hptrue, ?_⟩
      intro q2 hq2
      have := hpre q2 hq2
      simpa using this
  · intro s choice hn hrange hnone
    unfold get_balanced_pair
    rw [if_neg (by omega)]
    have hfind : (pairScan (sorted_match_counts s)).find? (low_count_test s) =
        none := by
      rw [List.find?_eq_none]
      intro q hq hpq
      simp only [low_count_test, Bool.and_eq_true, Bool.not_eq_true',
        decide_eq_true_eq] at hpq
      obtain ⟨⟨hc1, hc2⟩, hw⟩ := hpq
      have hsubq := pairScan_subset _ q hq
      have h1 : q.1 ∈ match_counts s := mem_sorted_match_counts hsubq.1
      have h2 : q.2 ∈ match_counts s := mem_sorted_match_counts hsubq.2
      obtain ⟨hu1, hu2⟩ := mem_match_counts.mp h1
      obtain ⟨hv1, hv2⟩ := mem_match_counts.mp h2
      have hne0 : q.1.1 ≠ q.2.1 :=
        pairScan_map_ne Prod.fst _ (sorted_match_counts_fst_nodup s) q hq
      have hmc1 : match_count s.match_history q.1.1 = q.1.2 :=
        (congrArg Prod.snd hu2).symm
      have hmc2 : match_count s.match_history q.2.1 = q.2.2 :=
        (congrArg Prod.snd hv2).symm
      exact hnone q.1.1 q.2.1 ⟨hu1, hv1, hne0, hmc1 ▸ hc1, hmc2 ▸ hc2, hw⟩
    rw [hfind]

/-- Witness for C9: on exBalanced the returned never-seen pair (0, 1) is a
valid balanced pair, and on exBalanced2 the returned least-matched pair
(2, 3) is a valid balanced pair. -/
theorem balanced_pair_spec_witness :
    balanced_pair_ok exBalanced 0 1 ∧ balanced_pair_ok exBalanced2 2 3 :=
  ⟨(balanced_pair_spec.2.1 exBalanced (9, 9) 0 1 0 1 (by decide) (by decide)
      (balanced_pair_spec.2.2.2.1 (9, 9))).1,
   (balanced_pair_spec.2.1 exBalanced2 (8, 8) 2 3 2 4 (by decide) (by decide)
      (balanced_pair_spec.2.2.2.2 (8, 8))).1⟩

unseal List.mergeSort List.merge in
/-- Witness for C8 on exRank (ratings 1100, 1000 by default, 1100): three
entries, rank 1 at position 0, descending ratings, and the tied rows 0 and
2 keep their original relative order. -/
theorem get_rankings_spec_witness :
    (get_rankings exRank).length = exRank.items.length ∧
    ((get_rankings exRank).getD 0 ⟨0, 0, 0⟩).rank = 0 + 1 ∧
    ((get_rankings exRank).getD 1 ⟨0, 0, 0⟩).elo ≤
      ((get_rankings exRank).getD 0 ⟨0, 0, 0⟩).elo ∧
    ((get_rankings exRank).getD 0 ⟨0, 0, 0⟩).index <
      ((get_rankings exRank).getD 1 ⟨0, 0, 0⟩).index := by
  have h := get_rankings_spec exRank
  have hlen3 : (get_rankings exRank).length = 3 := by
    rw [h.1]
    rfl
  have h0 : 0 < (get_rankings exRank).length := by omega
  have h1 : 1 < (get_rankings exRank).length := by omega
  have heqD : ((get_rankings exRank).getD 0 ⟨0, 0, 0⟩).elo =
      ((get_rankings exRank).getD 1 ⟨0, 0, 0⟩).elo := by decide
  rw [List.getD_eq_get _ _ h0, List.getD_eq_get _ _ h1] at heqD ⊢
  exact ⟨h.1, h.2.2.1 0 h0, h.2.1 0 1 h0 h1 (by omega),
    h.2.2.2 0 1 h0 h1 (by omega) heqD⟩

/-- Witness for C10: recording a match between the two items of exEven
leaves the rating of the unrelated key 9 unchanged and grows the history
by one. -/
theorem record_match_frame_witness :
    dictGet exEven'.elo_scores 9 = dictGet exEven.elo_scores 9 ∧
    exEven'.match_history.length = exEven.match_history.length + 1 := by
  have hc : calculate_elo_change pow10R 1000 1000 = (1016, 984) := by
    rw [calculate_elo_change_self]
    norm_num
  have hr : record_match pow10R exEven 0 1 = some exEven' := by
    unfold record_match exEven exEven'
    simp [dictGet, dictSet, hc]
  have h := record_match_frame exEven exEven' 0 1 5 7 rfl rfl (by decide) hr
  exact ⟨h.1 9 (by decide) (by decide), h.2.1⟩

end Ranker
